import Mathlib

set_option maxRecDepth 4000

/-!
Verification of the EmphasisDashboard streaming-analytics engine.

The definitions below are a shallow embedding of the two client modules:
`OptionChainClient` (highlight engine, diff-ratio arithmetic) and
`PcrTableClient` (history buffer, window sampler, trend classifier,
composite scoring, regime classification, signal journal, compact-volume
parsing).  JavaScript numbers are modelled as `ℚ` (all the constants and
operations involved are exact in ℚ), the `±Infinity` sentinels of the
diff-ratio function as an explicit extended type, timestamps as `ℤ`, and
fallible parsing as `Option`.
-/

/-- JS `Array.prototype.slice(-n)`: the last `n` elements of a list
(the whole list when it is shorter than `n`). -/
def takeLast (n : Nat) (l : List α) : List α :=
  (l.reverse.take n).reverse

/-! ## Diff-ratio arithmetic (`OptionChainClient`, `diffRatioFromPrev`) -/

/-- A JS number that may be `+Infinity` or `-Infinity`; finite values are `ℚ`. -/
inductive ERat where
  | posInf : ERat
  | negInf : ERat
  | fin (q : ℚ) : ERat
deriving DecidableEq, Repr

/-- `x >= t` for an `ERat` `x` and a finite threshold `t`
(JS `>=` with an infinite left operand). -/
def ERat.geQ (x : ERat) (t : ℚ) : Bool :=
  match x with
  | .posInf => true
  | .negInf => false
  | .fin q => t ≤ q

/-- `x <= t` for an `ERat` `x` and a finite threshold `t`
(JS `<=` with an infinite left operand). -/
def ERat.leQ (x : ERat) (t : ℚ) : Bool :=
  match x with
  | .posInf => false
  | .negInf => true
  | .fin q => q ≤ t

/-- `diffRatioFromPrev` from `OptionChainClient`: change-in-OI-change ratio
with sentinel handling for a zero base.  `base = |prev|`; if the base is zero
the result is `0` (when `next = 0`) or a signed infinity; otherwise it is
`(next - prev) / base`. -/
def diffRatioFromPrev (prevValue nextValue : ℚ) : ERat :=
  let base := |prevValue|
  if base = 0 then
    if nextValue = 0 then .fin 0
    else if 0 < nextValue then .posInf
    else .negInf
  else .fin ((nextValue - prevValue) / base)

/-- `parseThresholdPct` fallback: the default highlight threshold `15 / 100`. -/
def defaultOiChangeThreshold : ℚ := 15 / 100

/-! ## History buffer (`PcrTableClient`, `mergeIncomingRows`) -/

/-- A PCR table record, observed through the stringified field lookup
`String(row[h] ?? "")` that `buildRowKey` performs on it. -/
def PcrRecord := String → String

/-- The tracked column headers of the PCR table. -/
def headers : List String :=
  ["Time", "PE Total OI Change", "CE Total OI Change", "PE OI Change (±2)",
   "CE OI Change (±2)", "ALL Change OI PCR", "Current Change OI PCR",
   "Current All OI PCR"]

/-- `buildRowKey`: the content key of a record, the pipe-joined stringified
values of all tracked headers. -/
def buildRowKey (row : PcrRecord) : String :=
  String.intercalate "|" (headers.map row)

/-- One stored history row: content key, logical arrival timestamp (ms), and
the record itself. -/
structure DisplayRow where
  key : String
  seenAt : ℤ
  row : PcrRecord

/-- `MAX_ROWS`: the incoming batch is restricted to its last 5 records. -/
def MAX_ROWS : Nat := 5

/-- `HISTORY_MAX_ROWS`: capacity of the history buffer. -/
def HISTORY_MAX_ROWS : Nat := 10000

/-- The append loop of `mergeIncomingRows`: walk the (truncated) incoming
batch, skip records whose key is already known, and stamp each appended
record with the next logical timestamp (`now + offsetMs`, the offset rising
by one per appended record, here carried as a moving base). -/
def freshRows : List String → List PcrRecord → ℤ → List DisplayRow
  | _, [], _ => []
  | previousKeys, r :: rs, now =>
    let key := buildRowKey r
    if key ∈ previousKeys then freshRows previousKeys rs now
    else ⟨key, now, r⟩ :: freshRows (key :: previousKeys) rs (now + 1)

/-- `mergeIncomingRows`: no-op on an empty batch; otherwise keep only the
last `MAX_ROWS` incoming records, append the unseen ones in arrival order,
and truncate the buffer to the newest `HISTORY_MAX_ROWS` entries. -/
def mergeIncomingRows (previousRows : List DisplayRow)
    (incomingRecords : List PcrRecord) (now : ℤ) : List DisplayRow :=
  if incomingRecords.isEmpty then previousRows
  else
    takeLast HISTORY_MAX_ROWS
      (previousRows ++
        freshRows (previousRows.map (·.key)) (takeLast MAX_ROWS incomingRecords) now)

/-- Reference filter for the appended keys: drop a key exactly when it is
already in `keys` or occurred earlier in the batch. -/
def dedupFilter (keys : List String) : List String → List String
  | [] => []
  | k :: ks => if k ∈ keys then dedupFilter keys ks else k :: dedupFilter (k :: keys) ks

/-- A concrete record family whose members have pairwise distinct content
keys (they differ in the stringified `Time` column). -/
def crec (i : Nat) : PcrRecord :=
  fun h => if h = "Time" then toString i else "x"

/-! ## Window sampler (`PcrTableClient`, sampling effect) -/

/-- One downsampled point; `ts` is the source field `at` (ms), `value` the
sampled ratio. -/
structure SamplePoint where
  ts : ℤ
  value : ℚ
deriving DecidableEq, Repr

/-- `MAX_PCR_SAMPLES`: capacity of each window series. -/
def MAX_PCR_SAMPLES : Nat := 600

/-- `THREE_MIN_MS`: nominal period of the short window. -/
def THREE_MIN_MS : ℤ := 3 * 60 * 1000

/-- `FIVE_MIN_MS`: nominal period of the long window. -/
def FIVE_MIN_MS : ℤ := 5 * 60 * 1000

/-- State of one window sampler: the stored series and the
`last…SampleAtRef` marker. -/
structure SamplerState where
  series : List SamplePoint
  lastSampleAt : Option ℤ
deriving DecidableEq, Repr

/-- Both refs start `null` with an empty series. -/
def initSampler : SamplerState := ⟨[], none⟩

/-- `appendSample`: push the new point and keep the newest
`MAX_PCR_SAMPLES`. -/
def appendSample (series : List SamplePoint) (t : ℤ) (v : ℚ) : List SamplePoint :=
  takeLast MAX_PCR_SAMPLES (series ++ [⟨t, v⟩])

/-- One firing of the sampling effect for a new history tail record arriving
at time `arrival.1` with ratio value `arrival.2`: sample immediately when no
sample was ever taken, otherwise only when the elapsed time since the last
sample is at least the period. -/
def sampleStep (period : ℤ) (s : SamplerState) (arrival : ℤ × ℚ) : SamplerState :=
  match s.lastSampleAt with
  | none => ⟨appendSample s.series arrival.1 arrival.2, some arrival.1⟩
  | some t0 =>
    if period ≤ arrival.1 - t0 then
      ⟨appendSample s.series arrival.1 arrival.2, some arrival.1⟩
    else s

/-- Fold the sampling effect over a whole sequence of tail-record arrivals,
starting from the pristine state. -/
def runSampler (period : ℤ) (arrivals : List (ℤ × ℚ)) : SamplerState :=
  arrivals.foldl (sampleStep period) initSampler

/-- Invariant tying the series to the `lastSampleAt` marker: consecutive
stored samples are strictly increasing and spaced at least `period` apart,
every stored timestamp is at most the marker, and an unset marker means an
empty series. -/
def SamplerInv (period : ℤ) (s : SamplerState) : Prop :=
  List.Chain' (fun a b => a.ts < b.ts ∧ a.ts + period ≤ b.ts) s.series ∧
  (∀ t0, s.lastSampleAt = some t0 → ∀ x ∈ s.series, x.ts ≤ t0) ∧
  (s.lastSampleAt = none → s.series = [])

/-! ## Trend classifier (`PcrTableClient`, `buildTrendView`) -/

/-- Sentiment tone. -/
inductive Tone where
  | bullish
  | bearish
  | neutral
deriving DecidableEq, Repr

/-- Window identity: the short (3m) or the long (5m) series. -/
inductive WindowLabel where
  | w3m
  | w5m
deriving DecidableEq, Repr

/-- The lowercase label string of a window. -/
def WindowLabel.str : WindowLabel → String
  | .w3m => "3m"
  | .w5m => "5m"

/-- `label.toUpperCase()` applied to the two possible label strings. -/
def WindowLabel.upper : WindowLabel → String
  | .w3m => "3M"
  | .w5m => "5M"

/-- A trend view: tone, headline title, latest value, slope and window
identity.  The narrative `subtitle` and `trail` strings of the source are
not modelled (no claim concerns them). -/
structure TrendView where
  tone : Tone
  title : String
  latest : Option ℚ
  slope : ℚ
  windowLabel : WindowLabel

/-- Consecutive deltas `v(i) - v(i-1)` of a value series (the classifier
loop over `i = 1 .. length-1`). -/
def deltas (l : List ℚ) : List ℚ :=
  List.zipWith (fun a b => b - a) l l.tail

/-- `upSteps`: the number of consecutive deltas at least `+0.01`. -/
def upStepsOf (l : List ℚ) : Nat :=
  ((deltas l).filter (fun d => decide ((0.01 : ℚ) ≤ d))).length

/-- `downSteps`: the number of consecutive deltas at most `-0.01`. -/
def downStepsOf (l : List ℚ) : Nat :=
  ((deltas l).filter (fun d => decide (d ≤ -(0.01 : ℚ)))).length

/-- `Math.max(...)` over a value list (`0` for an empty list, which the
classifier never queries). -/
def maxList : List ℚ → ℚ
  | [] => 0
  | x :: xs => xs.foldl max x

/-- `Math.min(...)` over a value list (`0` for an empty list). -/
def minList : List ℚ → ℚ
  | [] => 0
  | x :: xs => xs.foldl min x

/-- `buildTrendView`: zone-based tone classification of one window series,
mirroring the source's branch order and threshold constants.  The dead
locals `recentUpStreak` / `recentDownStreak` / `reversalConfirmedUp` /
`reversalConfirmedDown` (computed but never read) are elided, as are the
narrative strings. -/
def buildTrendView (series : List SamplePoint) (label : WindowLabel) : TrendView :=
  if series.length < 2 then
    { tone := .neutral
      title := label.upper ++ " TREND PENDING"
      latest := series.getLast?.map (·.value)
      slope := 0
      windowLabel := label }
  else
    let oldestToLatest := series.map (·.value)
    let latest := oldestToLatest.getLastD 0
    let oldest := oldestToLatest.headD 0
    let slope := latest - oldest
    let peak := maxList oldestToLatest
    let peakToLatestDrop := latest - peak
    let trough := minList oldestToLatest
    let troughToLatestRise := latest - trough
    let momentumThreshold : ℚ := if label = .w3m then 0.08 else 0.1
    if latest ≤ (0.75 : ℚ) then
      if (0.1 : ℚ) ≤ troughToLatestRise then
        { tone := .bullish, title := "BULLISH RISK", latest := some latest,
          slope := slope, windowLabel := label }
      else
        { tone := .bearish, title := "BEARISH MARKET", latest := some latest,
          slope := slope, windowLabel := label }
    else if (1.25 : ℚ) ≤ latest then
      if peakToLatestDrop ≤ -(0.1 : ℚ) then
        { tone := .bearish, title := "BEARISH RISK", latest := some latest,
          slope := slope, windowLabel := label }
      else
        { tone := .bullish, title := "BULLISH MARKET", latest := some latest,
          slope := slope, windowLabel := label }
    else if |slope| < (0.06 : ℚ) then
      { tone := .neutral, title := "NEUTRAL", latest := some latest,
        slope := slope, windowLabel := label }
    else if momentumThreshold ≤ slope ∧
        oldestToLatest.length - 2 ≤ upStepsOf oldestToLatest then
      { tone := .bullish, title := "BULLISH MARKET", latest := some latest,
        slope := slope, windowLabel := label }
    else if slope ≤ -momentumThreshold ∧
        oldestToLatest.length - 2 ≤ downStepsOf oldestToLatest then
      { tone := .bearish, title := "BEARISH MARKET", latest := some latest,
        slope := slope, windowLabel := label }
    else
      { tone := .neutral, title := "NEUTRAL", latest := some latest,
        slope := slope, windowLabel := label }

/-- The tone assignment exactly as the specification words it (ordered zone
rules, first match wins); written from the spec text, to be compared with
the classifier above. -/
def claimToneSpec (series : List SamplePoint) (label : WindowLabel) : Tone :=
  if series.length < 2 then .neutral
  else
    let oldestToLatest := series.map (·.value)
    let latest := oldestToLatest.getLastD 0
    let oldest := oldestToLatest.headD 0
    let slope := latest - oldest
    let peak := maxList oldestToLatest
    let trough := minList oldestToLatest
    let momentumThreshold : ℚ := if label = .w3m then 0.08 else 0.1
    if latest ≤ (0.75 : ℚ) then
      if (0.1 : ℚ) ≤ latest - trough then .bullish else .bearish
    else if (1.25 : ℚ) ≤ latest then
      if latest - peak ≤ -(0.1 : ℚ) then .bearish else .bullish
    else if |slope| < (0.06 : ℚ) then .neutral
    else if momentumThreshold ≤ slope ∧
        oldestToLatest.length - 2 ≤ upStepsOf oldestToLatest then .bullish
    else if slope ≤ -momentumThreshold ∧
        oldestToLatest.length - 2 ≤ downStepsOf oldestToLatest then .bearish
    else .neutral

/-! ## Highlight engine (`OptionChainClient`, tick marks and `setHighlights`) -/

/-- A highlight mark: `highlight-green` (rising) or `highlight-red`
(falling). -/
inductive Hl where
  | green
  | red
deriving DecidableEq, Repr

/-- One option-chain row as the highlight engine observes it: the strike and
the (possibly missing) OI-change value of each leg. -/
structure ChainRow where
  strike : ℤ
  callOiChg : Option ℚ
  putOiChg : Option ℚ

/-- `new Map(chain.map(row => [row.strike, row]))` lookup: the last row with
a given strike wins. -/
def prevMapFind (chain : List ChainRow) (s : ℤ) : Option ChainRow :=
  chain.reverse.find? (fun r => r.strike == s)

/-- JS object-key assignment on an association list: overwrite the entry if
the key is present, otherwise append it. -/
def insertMark (m : List (ℤ × Hl)) (s : ℤ) (hl : Hl) : List (ℤ × Hl) :=
  if m.any (fun p => p.1 == s) then
    m.map (fun p => if p.1 == s then (s, hl) else p)
  else m ++ [(s, hl)]

/-- JS object-key read on an association list of marks. -/
def lookupMark (m : List (ℤ × Hl)) (s : ℤ) : Option Hl :=
  (m.find? (fun p => p.1 == s)).map (·.2)

/-- The tick's per-strike mark decision for one leg: green when the
diff ratio is at least the threshold, red when it is at most its negation,
no mark otherwise. -/
def markOf (thr : ℚ) (prevChg nextChg : ℚ) : Option Hl :=
  let r := diffRatioFromPrev prevChg nextChg
  if r.geQ thr then some .green
  else if r.leQ (-thr) then some .red
  else none

/-- One iteration of the tick's mark loop for one leg: if the row's strike
is also present in the previous chain (missing OI-changes default to `0`),
store that strike's mark, if any. -/
def markStep (thr : ℚ) (leg : ChainRow → Option ℚ) (prevChain : List ChainRow)
    (acc : List (ℤ × Hl)) (row : ChainRow) : List (ℤ × Hl) :=
  match prevMapFind prevChain row.strike with
  | none => acc
  | some prevRow =>
    match markOf thr ((leg prevRow).getD 0) ((leg row).getD 0) with
    | some hl => insertMark acc row.strike hl
    | none => acc

/-- The tick's new-mark map for one leg: walk the incoming chain rows in
order, starting from an empty map. -/
def legMarks (thr : ℚ) (leg : ChainRow → Option ℚ)
    (prevChain nextChain : List ChainRow) : List (ℤ × Hl) :=
  nextChain.foldl (markStep thr leg prevChain) []

/-- The per-strike highlight state of both legs. -/
structure HlPair where
  call : Option Hl
  put : Option Hl
deriving DecidableEq, Repr

/-- The `setHighlights` merge: per leg independently, the whole leg map is
replaced by the new marks when there is at least one, and the previous leg
state is carried forward unchanged when there is none. -/
def setHighlights (prevHl : ℤ → HlPair)
    (callMarks putMarks : List (ℤ × Hl)) : ℤ → HlPair :=
  fun s =>
    { call := if callMarks.isEmpty then (prevHl s).call else lookupMark callMarks s
      put := if putMarks.isEmpty then (prevHl s).put else lookupMark putMarks s }

/-! ## Composite scoring (`PcrTableClient`, `analyticsView`) -/

/-- `text.includes(needle)`: substring containment, via `splitOn`. -/
def strContains (hay needle : String) : Bool :=
  (hay.splitOn needle).length > 1

/-- A session phase: display name and score multiplier. -/
structure SessionPhase where
  name : String
  multiplier : ℚ

/-- `getIstSessionPhase` as a function of the IST time of day in minutes
(`hour * 60 + minute`), with the source's band boundaries and
multipliers. -/
def getIstSessionPhase (total : Nat) : SessionPhase :=
  if 9 * 60 + 15 ≤ total ∧ total < 10 * 60 then ⟨"Opening Drive", 1.08⟩
  else if 10 * 60 ≤ total ∧ total < 13 * 60 + 30 then ⟨"Trend Window", 1⟩
  else if 13 * 60 + 30 ≤ total ∧ total ≤ 15 * 60 + 30 then ⟨"Late Session", 0.92⟩
  else ⟨"Off Session", 0.85⟩

/-- `Math.round`: round half toward positive infinity. -/
def jsRound (q : ℚ) : ℤ := ⌊q + 1 / 2⌋

/-- `oiBalance`: `|pe| / max(1, |ce|)` when both legs are nonzero, else
`1`. -/
def oiBalance (peChg ceChg : ℚ) : ℚ :=
  if peChg ≠ 0 ∧ ceChg ≠ 0 then |peChg| / max 1 |ceChg| else 1

/-- The net ±10 OI-flow adjustment of the composite score: `+10` with a
clear imbalance (`oiBalance ≥ 1.15`) and `oiDiff = pe - ce` positive,
`-10` with a clear imbalance and `oiDiff` negative. -/
def oiAdjust (peChg ceChg : ℚ) : ℤ :=
  (if oiBalance peChg ceChg ≥ 1.15 ∧ peChg - ceChg > 0 then 10 else 0) +
  (if oiBalance peChg ceChg ≥ 1.15 ∧ peChg - ceChg < 0 then -10 else 0)

/-- The ±10 adjustment as the claim words it — the imbalance ratio between
the two legs, favoring whichever leg is larger, at least 1.15: `+10` when PE
exceeds CE by that ratio, `-10` when CE exceeds PE by that ratio; written
from the spec, for comparison. -/
def claimOiAdjust (peChg ceChg : ℚ) : ℤ :=
  if |peChg| ≥ 1.15 * |ceChg| then 10
  else if |ceChg| ≥ 1.15 * |peChg| then -10
  else 0

/-- The composite score of `analyticsView`: base 50, trend-agreement ±22
(disagreement adds 0), ratio-zone ±10, OI-flow ±10, build-up text ±8,
price-vs-VWAP text ±8, then the session multiplier, clamped to [0, 100]
and rounded. -/
def scoreOf (tone3 tone5 : Tone) (latestAllPcr : Option ℚ) (peChg ceChg : ℚ)
    (buildUpSignal vwapSignal : String) (istMinutes : Nat) : ℤ :=
  let trendAdjust : ℤ :=
    (if tone3 = .bullish ∧ tone5 = .bullish then 22 else 0) -
    (if tone3 = .bearish ∧ tone5 = .bearish then 22 else 0)
  let pcrAdjust : ℤ :=
    match latestAllPcr with
    | none => 0
    | some v => (if v ≥ 1.25 then 10 else 0) + (if v ≤ 0.75 then -10 else 0)
  let buildSignal := buildUpSignal.toLower
  let buildAdjust : ℤ :=
    (if strContains buildSignal ("bullish") then 8 else 0) +
    (if strContains buildSignal ("bearish") then -8 else 0)
  let vwapLower := vwapSignal.toLower
  let vwapAdjust : ℤ :=
    (if strContains vwapLower ("above") then 8 else 0) +
    (if strContains vwapLower ("below") then -8 else 0)
  let raw : ℤ :=
    50 + trendAdjust + pcrAdjust + oiAdjust peChg ceChg + buildAdjust + vwapAdjust
  let session := getIstSessionPhase istMinutes
  jsRound (max 0 (min 100 ((raw : ℚ) * session.multiplier)))

/-! ## Regime classification (`PcrTableClient`, `analyticsView`) -/

/-- Market regime. -/
inductive Regime where
  | trending
  | rangebound
  | volatileChoppy
  | balanced
deriving DecidableEq, Repr

/-- The display string of a regime. -/
def Regime.str : Regime → String
  | .trending => "Trending"
  | .rangebound => "Rangebound"
  | .volatileChoppy => "Volatile/Choppy"
  | .balanced => "Balanced"

/-- The valid ratio points of the history rows: the parsed
`ALL Change OI PCR` values with unparsable entries dropped, oldest to
newest. -/
def pcrPointsOf (vals : List (Option ℚ)) : List ℚ :=
  vals.filterMap id

/-- `recentPoints`: the last 20 valid ratio points. -/
def recentPointsOf (vals : List (Option ℚ)) : List ℚ :=
  takeLast 20 (pcrPointsOf vals)

/-- `range`: spread of the recent points, `0` below 2 points. -/
def rangeOf (pts : List ℚ) : ℚ :=
  if pts.length > 1 then maxList pts - minList pts else 0

/-- `netSlope`: last minus first recent point, `0` below 2 points. -/
def netSlopeOf (pts : List ℚ) : ℚ :=
  if 2 ≤ pts.length then pts.getLastD 0 - pts.headD 0 else 0

/-- `up`: count of strictly rising consecutive moves. -/
def upMovesOf (pts : List ℚ) : Nat :=
  ((deltas pts).filter (fun d => decide (0 < d))).length

/-- `down`: count of strictly falling consecutive moves. -/
def downMovesOf (pts : List ℚ) : Nat :=
  ((deltas pts).filter (fun d => decide (d < 0))).length

/-- `consistency = max(up, down) / max(1, steps)`. -/
def consistencyOf (pts : List ℚ) : ℚ :=
  ((max (upMovesOf pts) (downMovesOf pts) : Nat) : ℚ) /
    ((max 1 (pts.length - 1) : Nat) : ℚ)

/-- The regime classification over the recent ratio points, with the
source's branch order: `Rangebound` on a small range, `Volatile/Choppy` on
a wide inconsistent range, `Trending` on a strong consistent net slope,
`Balanced` otherwise. -/
def regimeOf (vals : List (Option ℚ)) : Regime :=
  let recentPoints := recentPointsOf vals
  let range := rangeOf recentPoints
  let consistency := consistencyOf recentPoints
  let netSlope := netSlopeOf recentPoints
  if range < (0.08 : ℚ) then .rangebound
  else if range > (0.22 : ℚ) ∧ consistency < (0.6 : ℚ) then .volatileChoppy
  else if (0.12 : ℚ) ≤ |netSlope| ∧ (0.7 : ℚ) ≤ consistency then .trending
  else .balanced

/-! ## Signal journal (`PcrTableClient`, journal effect) -/

/-- `MAX_JOURNAL_ROWS`: cap of the signal journal. -/
def MAX_JOURNAL_ROWS : Nat := 14

/-- Directional call of the analytics view. -/
inductive Direction where
  | bullishDir
  | bearishDir
  | noTrade
deriving DecidableEq, Repr

/-- The display string of a direction. -/
def Direction.str : Direction → String
  | .bullishDir => "BULLISH"
  | .bearishDir => "BEARISH"
  | .noTrade => "NO TRADE"

/-- The slice of the analytics view that the journal effect reads. -/
structure AnalyticsLite where
  direction : Direction
  score : ℤ
  regime : Regime
  entryReady : Bool
  confirmed : Bool
deriving DecidableEq, Repr

/-- The journal dedup key: the (direction, score, regime) triple rendered
as a pipe-joined string, as the effect stores it in
`lastJournalKeyRef`. -/
def journalKey (v : AnalyticsLite) : String :=
  v.direction.str ++ "|" ++ toString v.score ++ "|" ++ v.regime.str

/-- One journal entry; the `id` field (derived from `Date.now()`) is not
modelled. -/
structure JournalEntry where
  atTime : String
  direction : Direction
  score : ℤ
  reason : String
deriving DecidableEq, Repr

/-- The composed reason string of a journal entry. -/
def journalReason (v : AnalyticsLite) : String :=
  v.regime.str ++ " · " ++ (if v.entryReady then "entry-ready" else "setup") ++
    " · " ++ (if v.confirmed then "confirmed" else "pending")

/-- Journal state: the last recorded key (`lastJournalKeyRef`) and the
bounded log, newest first. -/
structure JournalState where
  lastKey : Option String
  journal : List JournalEntry
deriving DecidableEq, Repr

/-- One firing of the journal effect with the current analytics view `v`
and local-time string `t`: bail out on `NO TRADE` or on an unchanged key;
otherwise record the key and prepend an entry, keeping the newest
`MAX_JOURNAL_ROWS`. -/
def journalStep (s : JournalState) (v : AnalyticsLite) (t : String) : JournalState :=
  if v.direction = .noTrade then s
  else if s.lastKey = some (journalKey v) then s
  else
    { lastKey := some (journalKey v)
      journal :=
        ({ atTime := t, direction := v.direction, score := v.score,
           reason := journalReason v } :: s.journal).take MAX_JOURNAL_ROWS }

/-! ## Compact-volume parsing (`PcrTableClient`, `parseCompactVolume`)

The parser is modelled on character lists.  The regex
`^(-?\d+(?:\.\d+)?)\s*(Cr|L)?$/i` is deterministic on every input (greedy
digit runs and the optional groups never need backtracking), so it is
rendered as a straight-line recogniser returning the sign, integer digits,
fraction digits and unit. -/

/-- A JS value fed to `parseCompactVolume`: a (finite) number, a string, or
anything else. -/
inductive JsValue where
  | num (q : ℚ)
  | str (s : String)
  | other

/-- The recognised magnitude unit of the compact format. -/
inductive CompactUnit where
  | noUnit
  | cr
  | lakh
deriving DecidableEq, Repr

/-- The unit multipliers `1e7` (`Cr`) and `1e5` (`L`). -/
def unitMultiplier : CompactUnit → ℚ
  | .noUnit => 1
  | .cr => 10 ^ 7
  | .lakh => 10 ^ 5

/-- The character list of a unit as rendered in a compact string. -/
def unitChars : CompactUnit → List Char
  | .noUnit => []
  | .cr => ['C', 'r']
  | .lakh => ['L']

/-- Value of a digit run, most significant first. -/
def digitsToNat (ds : List Char) : Nat :=
  ds.foldl (fun acc c => 10 * acc + (c.toNat - '0'.toNat)) 0

/-- `Number("±<int>.<frac>")`: the signed decimal value of the matched
digit runs. -/
def decimalValue (neg : Bool) (intDs fracDs : List Char) : ℚ :=
  let mag : ℚ := (digitsToNat intDs : ℚ) + (digitsToNat fracDs : ℚ) / (10 : ℚ) ^ fracDs.length
  if neg then -mag else mag

/-- The optional leading minus of the compact regex. -/
def stripNeg (cs : List Char) : Bool × List Char :=
  match cs with
  | c :: rest => if c = '-' then (true, rest) else (false, cs)
  | [] => (false, cs)

/-- The `\s*(Cr|L)?$` tail of the compact regex: after dropping whitespace,
accept the end of input, a case-insensitive `L`, or a case-insensitive
`Cr`. -/
def compactTail (neg : Bool) (intDs fracDs rest : List Char) :
    Option (Bool × List Char × List Char × CompactUnit) :=
  match rest.dropWhile Char.isWhitespace with
  | [] => some (neg, intDs, fracDs, .noUnit)
  | [c] => if c = 'l' ∨ c = 'L' then some (neg, intDs, fracDs, .lakh) else none
  | [c1, c2] =>
    if (c1 = 'c' ∨ c1 = 'C') ∧ (c2 = 'r' ∨ c2 = 'R') then
      some (neg, intDs, fracDs, .cr)
    else none
  | _ => none

/-- The whole compact regex `^(-?\d+(?:\.\d+)?)\s*(Cr|L)?$/i` as a
deterministic recogniser: sign, mandatory integer digits, optional
fraction (a dot must be followed by at least one digit), whitespace, and
an optional unit. -/
def compactMatch (cs : List Char) :
    Option (Bool × List Char × List Char × CompactUnit) :=
  let s := stripNeg cs
  let intDs := s.2.takeWhile Char.isDigit
  let cs2 := s.2.dropWhile Char.isDigit
  if intDs.isEmpty then none
  else
    match cs2 with
    | c :: rest =>
      if c = '.' then
        let fracDs := rest.takeWhile Char.isDigit
        let cs3 := rest.dropWhile Char.isDigit
        if fracDs.isEmpty then none
        else compactTail s.1 intDs fracDs cs3
      else compactTail s.1 intDs [] (c :: rest)
    | [] => compactTail s.1 intDs [] []

/-- The optional leading sign of a JS decimal literal. -/
def stripSign (cs : List Char) : Bool × List Char :=
  match cs with
  | c :: rest =>
    if c = '-' then (true, rest)
    else if c = '+' then (false, rest)
    else (false, cs)
  | [] => (false, cs)

/-- The optional `e±ddd` exponent tail of a JS decimal literal. -/
def jsExpTail (neg : Bool) (intDs fracDs rest : List Char) :
    Option (Bool × List Char × List Char × Option (Bool × List Char)) :=
  match rest with
  | [] => some (neg, intDs, fracDs, none)
  | e :: rest1 =>
    if e = 'e' ∨ e = 'E' then
      let se := stripSign rest1
      let eDs := se.2.takeWhile Char.isDigit
      let rest2 := se.2.dropWhile Char.isDigit
      if eDs.isEmpty ∨ ¬ rest2.isEmpty then none
      else some (neg, intDs, fracDs, some (se.1, eDs))
    else none

/-- The decimal-literal alternative of the host `Number(raw)` grammar:
optional sign, digits with optional fraction (at least one digit on either
side of the dot), optional exponent.  The `Infinity` forms of that
alternative are not produced here: they denote a non-finite value, which
the source's `Number.isFinite` guard maps to null, so omitting them yields
`none` exactly as the source does. -/
def jsNumberParts (cs : List Char) :
    Option (Bool × List Char × List Char × Option (Bool × List Char)) :=
  let s := stripSign cs
  let intDs := s.2.takeWhile Char.isDigit
  let cs2 := s.2.dropWhile Char.isDigit
  match cs2 with
  | c :: rest =>
    if c = '.' then
      let fracDs := rest.takeWhile Char.isDigit
      let cs3 := rest.dropWhile Char.isDigit
      if intDs.isEmpty ∧ fracDs.isEmpty then none
      else jsExpTail s.1 intDs fracDs cs3
    else if intDs.isEmpty then none
    else jsExpTail s.1 intDs [] (c :: rest)
  | [] => if intDs.isEmpty then none else jsExpTail s.1 intDs [] []

/-- Apply a parsed exponent to a decimal value. -/
def expScale (q : ℚ) : Option (Bool × List Char) → ℚ
  | none => q
  | some (eneg, eDs) =>
    if eneg then q / (10 : ℚ) ^ digitsToNat eDs else q * (10 : ℚ) ^ digitsToNat eDs

/-- The `0x` / `0X` / `0o` / `0O` / `0b` / `0B` prefix of a non-decimal
integer literal of the `Number(raw)` grammar (no sign is allowed before
it): the base and the remaining characters. -/
def nonDecimalBase (cs : List Char) : Option (Nat × List Char) :=
  match cs with
  | c0 :: cb :: rest =>
    if c0 = '0' then
      if cb = 'x' ∨ cb = 'X' then some (16, rest)
      else if cb = 'o' ∨ cb = 'O' then some (8, rest)
      else if cb = 'b' ∨ cb = 'B' then some (2, rest)
      else none
    else none
  | _ => none

/-- Digit recogniser of a non-decimal integer literal for the given
base. -/
def baseDigit (base : Nat) (c : Char) : Bool :=
  if base = 16 then
    c.isDigit || (decide ('a' ≤ c) && decide (c ≤ 'f')) ||
      (decide ('A' ≤ c) && decide (c ≤ 'F'))
  else if base = 8 then decide ('0' ≤ c) && decide (c ≤ '7')
  else decide (c = '0') || decide (c = '1')

/-- The value of one (possibly hexadecimal) digit. -/
def baseDigitVal (c : Char) : Nat :=
  if c.isDigit then c.toNat - '0'.toNat
  else if decide ('a' ≤ c) && decide (c ≤ 'f') then c.toNat - 'a'.toNat + 10
  else c.toNat - 'A'.toNat + 10

/-- The non-decimal integer alternative of the `Number(raw)` grammar: a
base prefix followed by a nonempty run of digits of that base. -/
def nonDecimalValue (cs : List Char) : Option ℚ :=
  match nonDecimalBase cs with
  | none => none
  | some (base, ds) =>
    if ds ≠ [] ∧ ds.all (baseDigit base) then
      some ((ds.foldl (fun acc c => base * acc + baseDigitVal c) 0 : Nat) : ℚ)
    else none

/-- The host `Number(raw)` fallback of `parseCompactVolume`, modelled on
its `StringNumericLiteral` grammar (the input is already trimmed): a
non-decimal (hexadecimal, octal or binary) integer literal, or a signed
decimal literal with optional fraction and exponent — the two alternatives
accept disjoint inputs.  Strings outside the grammar parse to NaN and
non-finite results (the `Infinity` forms) are rejected by the source's
`Number.isFinite` guard; both are `none` here. -/
def jsNumber (cs : List Char) : Option ℚ :=
  match nonDecimalValue cs with
  | some q => some q
  | none =>
    (jsNumberParts cs).map (fun p => expScale (decimalValue p.1 p.2.1 p.2.2.1) p.2.2.2)

/-- `value.replace(/,/g, "").trim()`: drop the commas, then the leading
and trailing whitespace. -/
def trimChars (cs : List Char) : List Char :=
  ((cs.dropWhile Char.isWhitespace).reverse.dropWhile Char.isWhitespace).reverse

/-- The cleaned character list of a string input. -/
def cleanChars (s : String) : List Char :=
  trimChars (s.toList.filter (fun c => c != ','))

/-- `parseCompactVolume`: finite numbers pass through, non-strings are
unknown; a string is cleaned, matched against the compact regex (the
matched number times the unit multiplier), with the plain `Number`
conversion as fallback, and `none` for everything malformed. -/
def parseCompactVolume : JsValue → Option ℚ
  | .num q => some q
  | .other => none
  | .str s =>
    let raw := cleanChars s
    if raw.isEmpty then none
    else
      match compactMatch raw with
      | some (neg, intDs, fracDs, unit) =>
        some (decimalValue neg intDs fracDs * unitMultiplier unit)
      | none => jsNumber raw

/-- A well-formed compact string: optional minus, integer digits, optional
dot-separated fraction digits, `spaces` blanks, and the unit. -/
def renderCompact (neg : Bool) (intDs fracDs : List Char) (spaces : Nat)
    (unit : CompactUnit) : String :=
  ⟨(if neg then ['-'] else []) ++ intDs ++
    (if fracDs.isEmpty then [] else '.' :: fracDs) ++
    List.replicate spaces ' ' ++ unitChars unit⟩

/-! ## Theorems -/

theorem chain'_drop {α : Type _} {R : α → α → Prop} (n : Nat) :
    ∀ (l : List α), List.Chain' R l → List.Chain' R (l.drop n) := by
  induction n with
  | zero => intro l h; simpa using h
  | succ n ih =>
    intro l h
    cases l with
    | nil => simp
    | cons a l => simpa using ih l h.tail

theorem takeLast_eq_drop {α : Type _} (n : Nat) (l : List α) :
    takeLast n l = l.drop (l.length - n) := by
  unfold takeLast
  rw [← List.rtake_eq_reverse_take_reverse]
  rfl

theorem chain'_takeLast {α : Type _} {R : α → α → Prop} (n : Nat) (l : List α)
    (h : List.Chain' R l) : List.Chain' R (takeLast n l) := by
  rw [takeLast_eq_drop]
  exact chain'_drop _ l h

theorem freshRows_keys (rs : List PcrRecord) :
    ∀ (keys : List String) (now : ℤ),
      (freshRows keys rs now).map (·.key) = dedupFilter keys (rs.map buildRowKey) := by
  induction rs with
  | nil => intro keys now; simp [freshRows, dedupFilter]
  | cons r rs ih =>
    intro keys now
    simp only [freshRows, List.map_cons, dedupFilter]
    by_cases h : buildRowKey r ∈ keys
    · simp [h, ih]
    · simp [h, ih]

theorem freshRows_seenAt_ge (rs : List PcrRecord) :
    ∀ (keys : List String) (now : ℤ) (x : DisplayRow),
      x ∈ freshRows keys rs now → now ≤ x.seenAt := by
  induction rs with
  | nil => intro keys now x hx; simp [freshRows] at hx
  | cons r rs ih =>
    intro keys now x hx
    simp only [freshRows] at hx
    by_cases h : buildRowKey r ∈ keys
    · rw [if_pos h] at hx
      exact ih keys now x hx
    · rw [if_neg h] at hx
      rcases List.mem_cons.mp hx with rfl | hx
      · exact le_refl _
      · exact le_trans (by omega) (ih _ (now + 1) x hx)

theorem freshRows_chain (rs : List PcrRecord) :
    ∀ (keys : List String) (now : ℤ),
      List.Chain' (fun a b => a.seenAt < b.seenAt) (freshRows keys rs now) := by
  induction rs with
  | nil => intro keys now; simp [freshRows]
  | cons r rs ih =>
    intro keys now
    simp only [freshRows]
    by_cases h : buildRowKey r ∈ keys
    · rw [if_pos h]; exact ih keys now
    · rw [if_neg h]
      refine List.chain'_cons'.mpr ⟨?_, ih _ (now + 1)⟩
      intro b hb
      have hmem : b ∈ freshRows (buildRowKey r :: keys) rs (now + 1) :=
        List.mem_of_mem_head? hb
      have := freshRows_seenAt_ge rs _ (now + 1) b hmem
      simp only []
      omega

/-- **C1 (amended)** — On a nonempty batch, the merge keeps only the last
`MAX_ROWS = 5` incoming records, appends — in arrival order, with strictly
increasing logical timestamps `now, now+1, …` — exactly those of them whose
content key occurs neither in the buffer nor earlier among the appended
records, and truncates to the newest `HISTORY_MAX_ROWS = 10000` rows; in
particular appending the same content twice (differing only in arrival time)
leaves exactly one stored record. -/
theorem C1_history_merge_amended :
    (∀ (prev : List DisplayRow) (batch : List PcrRecord) (now : ℤ), batch ≠ [] →
        mergeIncomingRows prev batch now =
          takeLast HISTORY_MAX_ROWS
            (prev ++ freshRows (prev.map (·.key)) (takeLast MAX_ROWS batch) now)) ∧
    (∀ (keys : List String) (rs : List PcrRecord) (now : ℤ),
        (freshRows keys rs now).map (·.key) = dedupFilter keys (rs.map buildRowKey)) ∧
    (∀ (keys : List String) (rs : List PcrRecord) (now : ℤ),
        List.Chain' (fun a b => a.seenAt < b.seenAt) (freshRows keys rs now)) ∧
    (∀ (r : PcrRecord) (now1 now2 : ℤ),
        mergeIncomingRows (mergeIncomingRows [] [r] now1) [r] now2 =
          [⟨buildRowKey r, now1, r⟩]) := by
  refine ⟨?_, fun keys rs now => freshRows_keys rs keys now,
    fun keys rs now => freshRows_chain rs keys now, ?_⟩
  · intro prev batch now hb
    rw [mergeIncomingRows, if_neg (by simpa [List.isEmpty_iff] using hb)]
  · intro r now1 now2
    have h1 : mergeIncomingRows [] [r] now1 = [⟨buildRowKey r, now1, r⟩] := by
      simp [mergeIncomingRows, takeLast_eq_drop, freshRows, HISTORY_MAX_ROWS, MAX_ROWS]
    rw [h1]
    simp [mergeIncomingRows, takeLast_eq_drop, freshRows, HISTORY_MAX_ROWS, MAX_ROWS]

/-- Witness for C1 at concrete inputs. -/
theorem C1_history_merge_witness :
    mergeIncomingRows [] [crec 0] 0 =
      takeLast HISTORY_MAX_ROWS
        (([] : List DisplayRow) ++ freshRows [] (takeLast MAX_ROWS [crec 0]) 0) ∧
    mergeIncomingRows (mergeIncomingRows [] [crec 0] 3) [crec 0] 7 =
      [⟨buildRowKey (crec 0), 3, crec 0⟩] :=
  ⟨C1_history_merge_amended.1 [] [crec 0] 0 (by simp),
   C1_history_merge_amended.2.2.2 (crec 0) 3 7⟩

/-- **C1 counterexample** — a batch of six distinct, unseen records merged
into an empty buffer: the claim says all six must be appended, but the first
record of the batch is dropped (the merge only considers the last five), and
its key is absent from the result even though it never occurred in the
buffer. -/
theorem C1_counterexample :
    ((mergeIncomingRows []
        [crec 0, crec 1, crec 2, crec 3, crec 4, crec 5] 0).map (·.key)).contains
      (buildRowKey (crec 0)) = false ∧
    (mergeIncomingRows []
        [crec 0, crec 1, crec 2, crec 3, crec 4, crec 5] 0).length = 5 := by
  constructor
  · decide
  · decide

/-- **C8** — The change-in-OI-change ratio function is total (it is a Lean
function into `ERat`, so no division fault can occur) and: `prev = 0, next = 0`
gives `0`; `prev = 0, next ≠ 0` gives `+∞` for positive `next` and `-∞` for
negative `next`; otherwise it equals `(next - prev) / |prev|`. -/
theorem C8_diffRatio_total_and_sentinels :
    diffRatioFromPrev 0 0 = .fin 0 ∧
    (∀ n : ℚ, 0 < n → diffRatioFromPrev 0 n = .posInf) ∧
    (∀ n : ℚ, n < 0 → diffRatioFromPrev 0 n = .negInf) ∧
    (∀ p n : ℚ, p ≠ 0 → diffRatioFromPrev p n = .fin ((n - p) / |p|)) := by
  refine ⟨by norm_num [diffRatioFromPrev], ?_, ?_, ?_⟩
  · intro n hn
    simp [diffRatioFromPrev, hn.ne', hn.not_lt, hn]
  · intro n hn
    simp [diffRatioFromPrev, hn.ne, hn.not_lt, hn]
  · intro p n hp
    simp [diffRatioFromPrev, abs_eq_zero, hp]

/-- Witness for C8 at concrete inputs. -/
theorem C8_diffRatio_witness :
    diffRatioFromPrev 0 0 = .fin 0 ∧
    diffRatioFromPrev 0 3 = .posInf ∧
    diffRatioFromPrev 0 (-3) = .negInf ∧
    diffRatioFromPrev (-4) 2 = .fin (3 / 2) := by
  refine ⟨C8_diffRatio_total_and_sentinels.1,
    C8_diffRatio_total_and_sentinels.2.1 3 (by norm_num),
    C8_diffRatio_total_and_sentinels.2.2.1 (-3) (by norm_num),
    ?_⟩
  have h := C8_diffRatio_total_and_sentinels.2.2.2 (-4) 2 (by norm_num)
  rw [h]
  norm_num

theorem samplerInv_init (period : ℤ) : SamplerInv period initSampler := by
  refine ⟨by simp [initSampler], ?_, fun _ => rfl⟩
  intro t0 h x hx
  simp [initSampler] at hx

theorem mem_takeLast {α : Type _} {x : α} {n : Nat} {l : List α}
    (h : x ∈ takeLast n l) : x ∈ l := by
  rw [takeLast_eq_drop] at h
  exact List.drop_subset _ _ h

theorem samplerInv_step (period : ℤ) (hp : 0 < period) (s : SamplerState)
    (a : ℤ × ℚ) (h : SamplerInv period s) : SamplerInv period (sampleStep period s a) := by
  obtain ⟨hchain, hbound, hnone⟩ := h
  match hlast : s.lastSampleAt with
  | none =>
    have hser : s.series = [] := hnone hlast
    refine ⟨?_, ?_, ?_⟩ <;> simp [sampleStep, hlast, hser, appendSample, takeLast_eq_drop, MAX_PCR_SAMPLES]
  | some t0 =>
    by_cases hcond : period ≤ a.1 - t0
    · have hstep : sampleStep period s a = ⟨appendSample s.series a.1 a.2, some a.1⟩ := by
        simp only [sampleStep, hlast]
        exact if_pos hcond
      rw [hstep]
      have hmem : ∀ x ∈ s.series, x.ts ≤ t0 := hbound t0 hlast
      have happend :
          List.Chain' (fun p q => p.ts < q.ts ∧ p.ts + period ≤ q.ts)
            (s.series ++ [⟨a.1, a.2⟩]) := by
        refine List.chain'_append.mpr ⟨hchain, List.chain'_singleton _, ?_⟩
        intro x hx y hy
        obtain ⟨hne, rfl⟩ := List.mem_getLast?_eq_getLast hx
        have hxmem : s.series.getLast hne ∈ s.series := List.getLast_mem hne
        have hxle := hmem _ hxmem
        have hy' : y = ⟨a.1, a.2⟩ := (by simpa using hy : _ = y).symm
        subst hy'
        have hts : (⟨a.1, a.2⟩ : SamplePoint).ts = a.1 := rfl
        rw [hts]
        exact ⟨by omega, by omega⟩
      refine ⟨?_, ?_, by simp⟩
      · show List.Chain' _ (takeLast MAX_PCR_SAMPLES (s.series ++ [(⟨a.1, a.2⟩ : SamplePoint)]))
        exact chain'_takeLast _ _ happend
      · intro t1 h1 x hx
        have h1' : t1 = a.1 := by simpa using h1.symm
        subst h1'
        have hx0 : x ∈ takeLast MAX_PCR_SAMPLES (s.series ++ [(⟨a.1, a.2⟩ : SamplePoint)]) := hx
        have hx' := mem_takeLast hx0
        rcases List.mem_append.mp hx' with hx1 | hx2
        · have := hmem x hx1
          omega
        · have hx2' : x = ⟨a.1, a.2⟩ := by simpa using hx2
          subst hx2'
          exact le_refl _
    · have hstep : sampleStep period s a = s := by
        simp only [sampleStep, hlast]
        exact if_neg hcond
      rw [hstep]
      exact ⟨hchain, hbound, hnone⟩

theorem samplerInv_foldl (period : ℤ) (hp : 0 < period) :
    ∀ (l : List (ℤ × ℚ)) (s : SamplerState), SamplerInv period s →
      SamplerInv period (l.foldl (sampleStep period) s) := by
  intro l
  induction l with
  | nil => intro s h; exact h
  | cons a l ih =>
    intro s h
    exact ih _ (samplerInv_step period hp s a h)

/-- **C2** — The window sampler samples the first tail record immediately
(unset marker), thereafter appends exactly when the new record's timestamp
minus the last-sampled timestamp is at least the period (advancing the
marker) and does nothing otherwise; consequently, for every sequence of
arrival timestamps and every positive period, the stored sample timestamps
are strictly increasing and consecutive samples are spaced at least the
period apart. -/
theorem C2_window_sampler :
    (∀ (period t : ℤ) (v : ℚ) (s : SamplerState), s.lastSampleAt = none →
        sampleStep period s (t, v) = ⟨appendSample s.series t v, some t⟩) ∧
    (∀ (period t0 t : ℤ) (v : ℚ) (s : SamplerState), s.lastSampleAt = some t0 →
        (period ≤ t - t0 →
           sampleStep period s (t, v) = ⟨appendSample s.series t v, some t⟩) ∧
        (t - t0 < period → sampleStep period s (t, v) = s)) ∧
    (∀ (period : ℤ) (arrivals : List (ℤ × ℚ)), 0 < period →
        List.Chain' (fun a b => a.ts < b.ts ∧ a.ts + period ≤ b.ts)
          (runSampler period arrivals).series) := by
  refine ⟨?_, ?_, ?_⟩
  · intro period t v s h
    simp [sampleStep, h]
  · intro period t0 t v s h
    constructor
    · intro hle
      simp only [sampleStep, h]
      exact if_pos hle
    · intro hlt
      simp only [sampleStep, h]
      exact if_neg (by omega)
  · intro period arrivals hp
    exact (samplerInv_foldl period hp arrivals initSampler (samplerInv_init period)).1

/-- Witness for C2 at concrete inputs (3-minute window). -/
theorem C2_window_sampler_witness :
    sampleStep THREE_MIN_MS initSampler (0, 1) = ⟨appendSample [] 0 1, some 0⟩ ∧
    sampleStep THREE_MIN_MS ⟨[⟨0, 1⟩], some 0⟩ (180000, 2) =
      ⟨appendSample [⟨0, 1⟩] 180000 2, some 180000⟩ ∧
    sampleStep THREE_MIN_MS ⟨[⟨0, 1⟩], some 0⟩ (1000, 2) =
      (⟨[⟨0, 1⟩], some 0⟩ : SamplerState) ∧
    List.Chain' (fun a b => a.ts < b.ts ∧ a.ts + THREE_MIN_MS ≤ b.ts)
      (runSampler THREE_MIN_MS [(0, 1), (1000, 2), (180000, 2)]).series :=
  ⟨C2_window_sampler.1 THREE_MIN_MS 0 1 initSampler rfl,
   (C2_window_sampler.2.1 THREE_MIN_MS 0 180000 2 ⟨[⟨0, 1⟩], some 0⟩ rfl).1
     (by norm_num [THREE_MIN_MS]),
   (C2_window_sampler.2.1 THREE_MIN_MS 0 1000 2 ⟨[⟨0, 1⟩], some 0⟩ rfl).2
     (by norm_num [THREE_MIN_MS]),
   C2_window_sampler.2.2 THREE_MIN_MS [(0, 1), (1000, 2), (180000, 2)]
     (by norm_num [THREE_MIN_MS])⟩

/-- **C3** — For every sample series, the classifier's tone equals the
spec's ordered zone rules (pending below 2 points; low zone `latest ≤ 0.75`
split on `latest - trough ≥ 0.10`; high zone `latest ≥ 1.25` split on
`latest - peak ≤ -0.10`; mid zone split on `|slope| < 0.06`, momentum
thresholds 0.08 (3m) / 0.10 (5m) with near-monotonic step counts); with
fewer than 2 points the tone is neutral and the title is
`<WINDOW> TREND PENDING`; and the two quoted instances hold:
latest 0.5 with trough 0.3 is bullish, latest 1.5 with peak 1.8 is
bearish. -/
theorem C3_trend_classifier :
    (∀ (series : List SamplePoint) (label : WindowLabel),
        (buildTrendView series label).tone = claimToneSpec series label) ∧
    (∀ (series : List SamplePoint) (label : WindowLabel), series.length < 2 →
        (buildTrendView series label).tone = .neutral ∧
        (buildTrendView series label).title =
          label.upper ++ " TREND PENDING") ∧
    (buildTrendView [⟨0, 0.3⟩, ⟨1, 0.5⟩] .w3m).tone = .bullish ∧
    (buildTrendView [⟨0, 1.8⟩, ⟨1, 1.5⟩] .w3m).tone = .bearish := by
  refine ⟨?_, ?_,
    by norm_num [buildTrendView, maxList, minList, upStepsOf, downStepsOf, deltas],
    by norm_num [buildTrendView, maxList, minList, upStepsOf, downStepsOf, deltas]⟩
  · intro series label
    dsimp only [buildTrendView, claimToneSpec]
    split_ifs <;> rfl
  · intro series label h
    simp [buildTrendView, h]

/-- Witness for C3 at a concrete input (empty 5m series is pending). -/
theorem C3_trend_classifier_witness :
    (buildTrendView [] .w5m).tone = .neutral ∧
    (buildTrendView [] .w5m).title = "5M TREND PENDING" := by
  have h := C3_trend_classifier.2.1 [] .w5m (by decide)
  exact ⟨h.1, by rw [h.2]; decide⟩

theorem lookupMark_cons (q : ℤ × Hl) (m : List (ℤ × Hl)) (s' : ℤ) :
    lookupMark (q :: m) s' = if q.1 = s' then some q.2 else lookupMark m s' := by
  by_cases h : q.1 = s'
  · simp [lookupMark, h]
  · simp [lookupMark, h]

theorem lookupMark_map_replace_ne {s s' : ℤ} (hl : Hl) (hne : s' ≠ s) :
    ∀ m : List (ℤ × Hl),
      lookupMark (m.map (fun p => if p.1 == s then (s, hl) else p)) s' =
        lookupMark m s' := by
  intro m
  induction m with
  | nil => rfl
  | cons p m ih =>
    rw [List.map_cons]
    by_cases hp : p.1 = s
    · have hhead : (if p.1 == s then ((s : ℤ), hl) else p) = (s, hl) := by simp [hp]
      rw [hhead, lookupMark_cons, lookupMark_cons,
        if_neg (show ¬ ((s : ℤ), hl).1 = s' from by simpa using Ne.symm hne),
        if_neg (show ¬ p.1 = s' from fun hc => hne (hc ▸ hp))]
      exact ih
    · have hhead : (if p.1 == s then ((s : ℤ), hl) else p) = p := by simp [hp]
      rw [hhead, lookupMark_cons, lookupMark_cons]
      by_cases hq : p.1 = s'
      · rw [if_pos hq, if_pos hq]
      · rw [if_neg hq, if_neg hq]
        exact ih

theorem lookupMark_map_replace_eq {s : ℤ} (hl : Hl) :
    ∀ m : List (ℤ × Hl), m.any (fun p => p.1 == s) = true →
      lookupMark (m.map (fun p => if p.1 == s then (s, hl) else p)) s = some hl := by
  intro m
  induction m with
  | nil => intro h; simp at h
  | cons p m ih =>
    intro hany
    rw [List.map_cons]
    by_cases hp : p.1 = s
    · have hhead : (if p.1 == s then ((s : ℤ), hl) else p) = (s, hl) := by simp [hp]
      rw [hhead, lookupMark_cons]
      simp
    · have hany' : m.any (fun p => p.1 == s) = true := by
        simpa [hp] using hany
      have hhead : (if p.1 == s then ((s : ℤ), hl) else p) = p := by simp [hp]
      rw [hhead, lookupMark_cons, if_neg hp]
      exact ih hany'

theorem lookupMark_append_single {s s' : ℤ} (hl : Hl) (m : List (ℤ × Hl))
    (hany : m.any (fun p => p.1 == s) = false) :
    lookupMark (m ++ [(s, hl)]) s' =
      if s' = s then some hl else lookupMark m s' := by
  have hall : ∀ p ∈ m, ¬ ((p : ℤ × Hl).1 == s) = true := by
    intro p hp
    have := List.any_eq_false.mp hany p hp
    simpa using this
  by_cases hq : s' = s
  · subst hq
    have hnone : m.find? (fun p => p.1 == s') = none :=
      List.find?_eq_none.mpr hall
    simp [lookupMark, hnone]
  · simp [lookupMark, Ne.symm hq, hq]

theorem lookupMark_insertMark (m : List (ℤ × Hl)) (s : ℤ) (hl : Hl) (s' : ℤ) :
    lookupMark (insertMark m s hl) s' =
      if s' = s then some hl else lookupMark m s' := by
  by_cases hany : m.any (fun p => p.1 == s) = true
  · rw [insertMark, if_pos hany]
    by_cases hq : s' = s
    · subst hq
      rw [if_pos rfl]
      exact lookupMark_map_replace_eq hl m hany
    · rw [if_neg hq]
      exact lookupMark_map_replace_ne hl hq m
  · rw [insertMark, if_neg hany]
    exact lookupMark_append_single hl m (Bool.eq_false_iff.mpr hany)

theorem lookupMark_markStep_ne (thr : ℚ) (leg : ChainRow → Option ℚ)
    (prevChain : List ChainRow) (acc : List (ℤ × Hl)) (row : ChainRow) (s : ℤ)
    (hs : row.strike ≠ s) :
    lookupMark (markStep thr leg prevChain acc row) s = lookupMark acc s := by
  rcases hfind : prevMapFind prevChain row.strike with _ | prevRow
  · simp only [markStep, hfind]
  · rcases hmark : markOf thr ((leg prevRow).getD 0) ((leg row).getD 0) with _ | hl
    · simp only [markStep, hfind, hmark]
    · simp only [markStep, hfind, hmark]
      rw [lookupMark_insertMark, if_neg (fun hc => hs hc.symm)]

theorem lookupMark_markStep_self (thr : ℚ) (leg : ChainRow → Option ℚ)
    (prevChain : List ChainRow) (acc : List (ℤ × Hl)) (row : ChainRow) :
    lookupMark (markStep thr leg prevChain acc row) row.strike =
      match (prevMapFind prevChain row.strike).bind
          (fun prevRow => markOf thr ((leg prevRow).getD 0) ((leg row).getD 0)) with
      | some hl => some hl
      | none => lookupMark acc row.strike := by
  rcases hfind : prevMapFind prevChain row.strike with _ | prevRow
  · simp only [markStep, hfind, Option.none_bind]
  · rcases hmark : markOf thr ((leg prevRow).getD 0) ((leg row).getD 0) with _ | hl
    · simp only [markStep, hfind, hmark, Option.some_bind]
    · simp only [markStep, hfind, hmark, Option.some_bind]
      rw [lookupMark_insertMark, if_pos rfl]

theorem legMarks_go (thr : ℚ) (leg : ChainRow → Option ℚ) (prevChain : List ChainRow) :
    ∀ (next : List ChainRow) (acc : List (ℤ × Hl)) (s : ℤ),
      (next.map (·.strike)).Nodup →
      lookupMark (next.foldl (markStep thr leg prevChain) acc) s =
        match next.find? (fun r => r.strike == s) with
        | some row =>
          match (prevMapFind prevChain s).bind
              (fun prevRow => markOf thr ((leg prevRow).getD 0) ((leg row).getD 0)) with
          | some hl => some hl
          | none => lookupMark acc s
        | none => lookupMark acc s := by
  intro next
  induction next with
  | nil => intro acc s _; rfl
  | cons row next ih =>
    intro acc s hnd
    rw [List.map_cons, List.nodup_cons] at hnd
    obtain ⟨hnd1, hnd2⟩ := hnd
    rw [List.foldl_cons]
    by_cases hs : row.strike = s
    · have hfc : List.find? (fun r => r.strike == s) (row :: next) = some row := by
        simp [hs]
      have hnone : List.find? (fun r => r.strike == s) next = none := by
        refine List.find?_eq_none.mpr ?_
        intro r hr
        simp only [beq_iff_eq]
        intro hc
        exact hnd1 (hs ▸ hc ▸ List.mem_map_of_mem (·.strike) hr)
      rw [ih _ s hnd2]
      simp only [hnone, hfc]
      subst hs
      exact lookupMark_markStep_self thr leg prevChain acc row
    · have hfc : List.find? (fun r => r.strike == s) (row :: next) =
          List.find? (fun r => r.strike == s) next := by
        simp [hs]
      rw [ih _ s hnd2, hfc,
        lookupMark_markStep_ne thr leg prevChain acc row s hs]

/-- **C4** — Per tick and per leg independently: a strike common to the
previous and current chain is newly marked green exactly when its diff
ratio is at least the threshold and red exactly when it is at most minus
the threshold (captured by the `markOf` decision inside the mark map
characterisation); the merge then replaces a leg's whole highlight map by
the new marks when the leg has at least one new mark, and carries every
strike's previous highlight of that leg forward unchanged when it has none
— so a trigger in one leg never alters the other leg's prior highlights. -/
theorem C4_highlight_merge :
    (∀ (thr : ℚ) (leg : ChainRow → Option ℚ) (prevChain nextChain : List ChainRow)
        (s : ℤ), (nextChain.map (·.strike)).Nodup →
        lookupMark (legMarks thr leg prevChain nextChain) s =
          (nextChain.find? (fun r => r.strike == s)).bind (fun row =>
            (prevMapFind prevChain s).bind (fun prevRow =>
              markOf thr ((leg prevRow).getD 0) ((leg row).getD 0)))) ∧
    (∀ (prevHl : ℤ → HlPair) (cm pm : List (ℤ × Hl)) (s : ℤ),
        (cm ≠ [] → (setHighlights prevHl cm pm s).call = lookupMark cm s) ∧
        (cm = [] → (setHighlights prevHl cm pm s).call = (prevHl s).call) ∧
        (pm ≠ [] → (setHighlights prevHl cm pm s).put = lookupMark pm s) ∧
        (pm = [] → (setHighlights prevHl cm pm s).put = (prevHl s).put)) := by
  constructor
  · intro thr leg prevChain nextChain s hnd
    rw [legMarks, legMarks_go thr leg prevChain nextChain [] s hnd]
    rcases hfind : nextChain.find? (fun r => r.strike == s) with _ | row
    · simp only [hfind, Option.none_bind]
      rfl
    · simp only [hfind, Option.some_bind]
      rcases hbind : (prevMapFind prevChain s).bind
          (fun prevRow => markOf thr ((leg prevRow).getD 0) ((leg row).getD 0)) with _ | hl
      · simp only [hbind]
        rfl
      · simp only [hbind]
  · intro prevHl cm pm s
    refine ⟨fun hc => ?_, fun hc => ?_, fun hp => ?_, fun hp => ?_⟩
    · simp [setHighlights, List.isEmpty_iff, hc]
    · simp [setHighlights, List.isEmpty_iff, hc]
    · simp [setHighlights, List.isEmpty_iff, hp]
    · simp [setHighlights, List.isEmpty_iff, hp]

/-- Witness for C4 at concrete inputs. -/
theorem C4_highlight_merge_witness :
    lookupMark
        (legMarks (15 / 100) (fun r => r.callOiChg)
          [⟨100, some 10, some 10⟩, ⟨200, some 10, some 10⟩]
          [⟨100, some 20, some 10⟩, ⟨200, some 10, some 10⟩]) 100 =
      (([⟨100, some 20, some 10⟩, ⟨200, some 10, some 10⟩] : List ChainRow).find?
          (fun r => r.strike == 100)).bind (fun row =>
        (prevMapFind [⟨100, some 10, some 10⟩, ⟨200, some 10, some 10⟩] 100).bind
          (fun prevRow =>
            markOf (15 / 100) (prevRow.callOiChg.getD 0) (row.callOiChg.getD 0))) ∧
    (setHighlights (fun _ => ⟨some .red, some .red⟩) [(100, .green)] [] 7).call =
      lookupMark [(100, .green)] 7 ∧
    (setHighlights (fun _ => ⟨some .red, some .red⟩) [(100, .green)] [] 7).put =
      some .red :=
  ⟨C4_highlight_merge.1 (15 / 100) (fun r => r.callOiChg)
      [⟨100, some 10, some 10⟩, ⟨200, some 10, some 10⟩]
      [⟨100, some 20, some 10⟩, ⟨200, some 10, some 10⟩] 100 (by decide),
   (C4_highlight_merge.2 (fun _ => ⟨some .red, some .red⟩) [(100, .green)] [] 7).1
      (by simp),
   (C4_highlight_merge.2 (fun _ => ⟨some .red, some .red⟩) [(100, .green)] [] 7).2.2.2
      rfl⟩

theorem jsRound_clamped (x : ℚ) :
    0 ≤ jsRound (max 0 (min 100 x)) ∧ jsRound (max 0 (min 100 x)) ≤ 100 := by
  have h0 : (0 : ℚ) ≤ max 0 (min 100 x) := le_max_left _ _
  have h1 : max 0 (min 100 x) ≤ 100 := max_le (by norm_num) (min_le_left _ _)
  unfold jsRound
  constructor
  · refine Int.le_floor.mpr ?_
    push_cast
    linarith
  · have := Int.floor_lt.mpr (show max 0 (min 100 x) + 1 / 2 < ((101 : ℤ) : ℚ) by push_cast; linarith)
    omega

/-- **C5** — For every combination of trend tones, latest ratio value,
OI-flow leg values, external build-up and price-vs-average texts, and IST
time of day (hence every session multiplier 1.08 / 1.00 / 0.92 / 0.85),
the composite score — base 50, adjustments ±22, ±10, ±10, ±8, ±8, then
multiplied, clamped and rounded — is an integer in [0, 100]. -/
theorem C5_score_in_range (tone3 tone5 : Tone) (latestAllPcr : Option ℚ)
    (peChg ceChg : ℚ) (buildUpSignal vwapSignal : String) (istMinutes : Nat) :
    0 ≤ scoreOf tone3 tone5 latestAllPcr peChg ceChg buildUpSignal vwapSignal istMinutes ∧
    scoreOf tone3 tone5 latestAllPcr peChg ceChg buildUpSignal vwapSignal istMinutes ≤ 100 := by
  unfold scoreOf
  exact jsRound_clamped _

/-- **C6 counterexample** — PE flow 100 and CE flow 200: the CE leg exceeds
the PE leg by ratio 2 ≥ 1.15, so the claim demands a −10 adjustment, but the
code's imbalance ratio is |PE| / max(1, |CE|) = 1/2 < 1.15 and no adjustment
is applied. -/
theorem C6_counterexample :
    oiAdjust 100 200 = 0 ∧ claimOiAdjust 100 200 = -10 := by
  constructor
  · norm_num [oiAdjust, oiBalance]
  · norm_num [claimOiAdjust]

/-- **C6 (amended)** — The ±10 OI-flow adjustment is applied exactly when
both legs are nonzero and the PE magnitude is at least 1.15 times
`max(1, |CE|)` — the ratio is always PE-over-CE, never whichever leg is
larger — with sign `+10` when `PE − CE > 0` and `−10` when `PE − CE < 0`. -/
theorem C6_oi_adjust_amended (pe ce : ℚ) :
    (oiAdjust pe ce = 10 ↔
      pe ≠ 0 ∧ ce ≠ 0 ∧ (1.15 : ℚ) * max 1 |ce| ≤ |pe| ∧ ce < pe) ∧
    (oiAdjust pe ce = -10 ↔
      pe ≠ 0 ∧ ce ≠ 0 ∧ (1.15 : ℚ) * max 1 |ce| ≤ |pe| ∧ pe < ce) := by
  have hM : (0 : ℚ) < max 1 |ce| := lt_of_lt_of_le one_pos (le_max_left _ _)
  by_cases hz : pe ≠ 0 ∧ ce ≠ 0
  · have hbal : oiBalance pe ce = |pe| / max 1 |ce| := by
      rw [oiBalance, if_pos hz]
    have hb : ((1.15 : ℚ) ≤ oiBalance pe ce) ↔ (1.15 : ℚ) * max 1 |ce| ≤ |pe| := by
      rw [hbal]
      exact le_div_iff₀ hM
    unfold oiAdjust
    by_cases hc : (1.15 : ℚ) * max 1 |ce| ≤ |pe|
    · have hb' : oiBalance pe ce ≥ 1.15 := hb.mpr hc
      rcases lt_trichotomy pe ce with hlt | heq | hgt
      · rw [if_neg (fun hx => absurd hx.2 (by linarith)), if_pos ⟨hb', by linarith⟩]
        constructor
        · constructor
          · intro hx
            norm_num at hx
          · rintro ⟨-, -, -, hgt'⟩
            linarith
        · constructor
          · intro _
            exact ⟨hz.1, hz.2, hc, hlt⟩
          · intro _
            norm_num
      · subst heq
        rw [if_neg (fun hx => absurd hx.2 (by linarith)),
          if_neg (fun hx => absurd hx.2 (by linarith))]
        constructor
        · constructor
          · intro hx
            norm_num at hx
          · rintro ⟨-, -, -, hgt'⟩
            linarith
        · constructor
          · intro hx
            norm_num at hx
          · rintro ⟨-, -, -, hlt'⟩
            linarith
      · rw [if_pos ⟨hb', by linarith⟩, if_neg (fun hx => absurd hx.2 (by linarith))]
        constructor
        · constructor
          · intro _
            exact ⟨hz.1, hz.2, hc, hgt⟩
          · intro _
            norm_num
        · constructor
          · intro hx
            norm_num at hx
          · rintro ⟨-, -, -, hlt'⟩
            linarith
    · have hb' : ¬ (oiBalance pe ce ≥ 1.15) := fun hx => hc (hb.mp hx)
      rw [if_neg (fun hx => hb' hx.1), if_neg (fun hx => hb' hx.1)]
      constructor
      · constructor
        · intro hx
          norm_num at hx
        · rintro ⟨-, -, hc', -⟩
          exact absurd hc' hc
      · constructor
        · intro hx
          norm_num at hx
        · rintro ⟨-, -, hc', -⟩
          exact absurd hc' hc
  · have hbal1 : oiBalance pe ce = 1 := by
      rw [oiBalance, if_neg hz]
    have hno : ¬ (oiBalance pe ce ≥ 1.15) := by
      rw [hbal1]
      norm_num
    unfold oiAdjust
    rw [if_neg (fun hx => hno hx.1), if_neg (fun hx => hno hx.1)]
    constructor
    · constructor
      · intro hx
        norm_num at hx
      · rintro ⟨hpe, hce, -, -⟩
        exact absurd ⟨hpe, hce⟩ hz
    · constructor
      · intro hx
        norm_num at hx
      · rintro ⟨hpe, hce, -, -⟩
        exact absurd ⟨hpe, hce⟩ hz

/-- **C7** — A journal entry is prepended exactly when the direction is not
NO TRADE and the recorded (direction, score, regime) key differs from the
last recorded one; the step is idempotent under repeated identical input
(two consecutive identical ticks produce one entry, not two); and the
journal never exceeds 14 entries, newest first, oldest dropped. -/
theorem C7_journal :
    (∀ (s : JournalState) (v : AnalyticsLite) (t : String),
        (journalStep s v t).journal =
          if v.direction ≠ .noTrade ∧ s.lastKey ≠ some (journalKey v) then
            ({ atTime := t, direction := v.direction, score := v.score,
               reason := journalReason v } :: s.journal).take MAX_JOURNAL_ROWS
          else s.journal) ∧
    (∀ (s : JournalState) (v : AnalyticsLite) (t t2 : String),
        journalStep (journalStep s v t) v t2 = journalStep s v t) ∧
    (∀ (s : JournalState) (v : AnalyticsLite) (t : String),
        s.journal.length ≤ MAX_JOURNAL_ROWS →
        (journalStep s v t).journal.length ≤ MAX_JOURNAL_ROWS) := by
  refine ⟨?_, ?_, ?_⟩
  · intro s v t
    by_cases hd : v.direction = .noTrade
    · simp [journalStep, hd]
    · by_cases hk : s.lastKey = some (journalKey v)
      · simp [journalStep, hd, hk]
      · simp [journalStep, hd, hk]
  · intro s v t t2
    by_cases hd : v.direction = .noTrade
    · simp [journalStep, hd]
    · by_cases hk : s.lastKey = some (journalKey v)
      · simp [journalStep, hd, hk]
      · simp [journalStep, hd, hk]
  · intro s v t hlen
    by_cases hd : v.direction = .noTrade
    · simpa [journalStep, hd] using hlen
    · by_cases hk : s.lastKey = some (journalKey v)
      · simpa [journalStep, hd, hk] using hlen
      · simp [journalStep, hd, hk, List.length_take]

/-- Witness for C7 at concrete inputs. -/
theorem C7_journal_witness :
    (journalStep ⟨none, []⟩ ⟨.bullishDir, 70, .trending, true, true⟩ "t1").journal =
      (if Direction.bullishDir ≠ .noTrade ∧
          (none : Option String) ≠
            some (journalKey ⟨.bullishDir, 70, .trending, true, true⟩) then
        ({ atTime := "t1", direction := .bullishDir, score := 70,
           reason := journalReason ⟨.bullishDir, 70, .trending, true, true⟩ } ::
          ([] : List JournalEntry)).take MAX_JOURNAL_ROWS
      else ([] : List JournalEntry)) ∧
    journalStep
        (journalStep ⟨none, []⟩ ⟨.bullishDir, 70, .trending, true, true⟩ "t1")
        ⟨.bullishDir, 70, .trending, true, true⟩ "t2" =
      journalStep ⟨none, []⟩ ⟨.bullishDir, 70, .trending, true, true⟩ "t1" ∧
    (journalStep ⟨none, []⟩ ⟨.bullishDir, 70, .trending, true, true⟩ "t1").journal.length ≤
      MAX_JOURNAL_ROWS :=
  ⟨C7_journal.1 ⟨none, []⟩ ⟨.bullishDir, 70, .trending, true, true⟩ "t1",
   C7_journal.2.1 ⟨none, []⟩ ⟨.bullishDir, 70, .trending, true, true⟩ "t1" "t2",
   C7_journal.2.2 ⟨none, []⟩ ⟨.bullishDir, 70, .trending, true, true⟩ "t1"
     (by simp)⟩

theorem length_takeLast_le {α : Type _} (n : Nat) (l : List α) :
    (takeLast n l).length ≤ l.length := by
  rw [takeLast_eq_drop, List.length_drop]
  omega

/-- **C10** — With fewer than 2 valid ratio points in the history buffer,
the regime computation's range and net slope are both `0`, so the regime is
classified `Rangebound` (never `Balanced` or any pending state). -/
theorem C10_regime_few_points (vals : List (Option ℚ))
    (h : (pcrPointsOf vals).length < 2) :
    rangeOf (recentPointsOf vals) = 0 ∧
    netSlopeOf (recentPointsOf vals) = 0 ∧
    regimeOf vals = .rangebound := by
  have hlen : (recentPointsOf vals).length < 2 :=
    lt_of_le_of_lt (length_takeLast_le 20 (pcrPointsOf vals)) h
  have hr : rangeOf (recentPointsOf vals) = 0 := by
    rw [rangeOf, if_neg (by omega)]
  have hn : netSlopeOf (recentPointsOf vals) = 0 := by
    rw [netSlopeOf, if_neg (by omega)]
  refine ⟨hr, hn, ?_⟩
  unfold regimeOf
  simp only [hr]
  norm_num

/-- Witness for C10: the empty history buffer. -/
theorem C10_regime_few_points_witness :
    rangeOf (recentPointsOf []) = 0 ∧
    netSlopeOf (recentPointsOf []) = 0 ∧
    regimeOf [] = .rangebound :=
  C10_regime_few_points [] (by simp [pcrPointsOf])

theorem ne_of_digit {c d : Char} (h : c.isDigit = true) (hd : d.isDigit = false) :
    c ≠ d := by
  intro hc
  rw [hc, hd] at h
  exact Bool.false_ne_true h

theorem digit_not_ws {c : Char} (h : c.isDigit = true) : c.isWhitespace = false := by
  have h1 : c ≠ ' ' := ne_of_digit h (by decide)
  have h2 : c ≠ '\t' := ne_of_digit h (by decide)
  have h3 : c ≠ '\r' := ne_of_digit h (by decide)
  have h4 : c ≠ '\n' := ne_of_digit h (by decide)
  rw [Char.isWhitespace]
  simp [h1, h2, h3, h4]

theorem dropWhile_eq_self_of_head {α : Type _} {p : α → Bool} {l : List α}
    (h : ∀ c ∈ l.head?, p c = false) : l.dropWhile p = l := by
  cases l with
  | nil => rfl
  | cons a l =>
    have ha : p a = false := h a (by simp)
    rw [List.dropWhile_cons_of_neg (by simp [ha])]

theorem trimChars_eq_self {cs : List Char}
    (h1 : ∀ c ∈ cs.head?, c.isWhitespace = false)
    (h2 : ∀ c ∈ cs.getLast?, c.isWhitespace = false) : trimChars cs = cs := by
  rw [trimChars, dropWhile_eq_self_of_head h1,
    dropWhile_eq_self_of_head (by simpa using h2), List.reverse_reverse]

theorem span_digits_prefix {a b : List Char}
    (ha : ∀ c ∈ a, c.isDigit = true)
    (hb : ∀ c ∈ b.head?, c.isDigit = false) :
    (a ++ b).takeWhile Char.isDigit = a ∧ (a ++ b).dropWhile Char.isDigit = b := by
  constructor
  · rw [List.takeWhile_append_of_pos ha]
    cases b with
    | nil => simp
    | cons c b =>
      have hc : c.isDigit = false := hb c (by simp)
      rw [List.takeWhile_cons_of_neg (by simp [hc])]
      simp
  · rw [List.dropWhile_append_of_pos ha]
    exact dropWhile_eq_self_of_head hb

theorem su_head (spaces : Nat) (unit : CompactUnit) :
    ∀ c ∈ (List.replicate spaces ' ' ++ unitChars unit).head?,
      c.isDigit = false ∧ c ≠ '.' := by
  intro c hc
  cases spaces with
  | zero =>
    cases unit with
    | noUnit => simp [unitChars] at hc
    | cr =>
      simp [unitChars] at hc
      subst hc
      exact ⟨by decide, by decide⟩
    | lakh =>
      simp [unitChars] at hc
      subst hc
      exact ⟨by decide, by decide⟩
  | succ n =>
    simp [List.replicate_succ] at hc
    subst hc
    exact ⟨by decide, by decide⟩

theorem compactTail_render (neg : Bool) (intDs fracDs : List Char) (spaces : Nat)
    (unit : CompactUnit) :
    compactTail neg intDs fracDs (List.replicate spaces ' ' ++ unitChars unit) =
      some (neg, intDs, fracDs, unit) := by
  have hws : ∀ c ∈ List.replicate spaces ' ', Char.isWhitespace c = true := by
    intro c hc
    rw [List.eq_of_mem_replicate hc]
    decide
  have hdrop : (List.replicate spaces ' ' ++ unitChars unit).dropWhile Char.isWhitespace =
      unitChars unit := by
    rw [List.dropWhile_append_of_pos hws]
    refine dropWhile_eq_self_of_head ?_
    intro c hc
    cases unit with
    | noUnit => simp [unitChars] at hc
    | cr =>
      simp [unitChars] at hc
      subst hc
      decide
    | lakh =>
      simp [unitChars] at hc
      subst hc
      decide
  cases unit with
  | noUnit => simp [compactTail, hdrop, unitChars]
  | cr => simp [compactTail, hdrop, unitChars]
  | lakh => simp [compactTail, hdrop, unitChars]

theorem stripNeg_render (neg : Bool) (B : List Char)
    (hB : ∀ c ∈ B.head?, c.isDigit = true) :
    stripNeg ((if neg then ['-'] else []) ++ B) = (neg, B) := by
  cases neg with
  | true => simp [stripNeg]
  | false =>
    simp only [if_neg Bool.false_ne_true, List.nil_append]
    cases B with
    | nil => rfl
    | cons d ds =>
      have hd : d.isDigit = true := hB d (by simp)
      have hne : d ≠ '-' := ne_of_digit hd (by decide)
      simp [stripNeg, hne]

theorem compactMatch_render (neg : Bool) (intDs fracDs : List Char) (spaces : Nat)
    (unit : CompactUnit) (hi : intDs ≠ [])
    (hdi : ∀ c ∈ intDs, c.isDigit = true) (hdf : ∀ c ∈ fracDs, c.isDigit = true) :
    compactMatch
        ((if neg then ['-'] else []) ++ intDs ++
          (if fracDs.isEmpty then [] else '.' :: fracDs) ++
          List.replicate spaces ' ' ++ unitChars unit) =
      some (neg, intDs, fracDs, unit) := by
  have hie : intDs.isEmpty = false := by
    cases intDs with
    | nil => exact absurd rfl hi
    | cons a l => rfl
  have hBhead : ∀ c ∈ (intDs ++
      ((if fracDs.isEmpty then [] else '.' :: fracDs) ++
        (List.replicate spaces ' ' ++ unitChars unit))).head? , c.isDigit = true := by
    intro c hc
    cases intDs with
    | nil => exact absurd rfl hi
    | cons a l =>
      simp only [List.cons_append, List.head?_cons, Option.mem_some_iff] at hc
      subst hc
      exact hdi _ (List.mem_cons_self _ _)
  have hFSUhead : ∀ c ∈ ((if fracDs.isEmpty then [] else '.' :: fracDs) ++
      (List.replicate spaces ' ' ++ unitChars unit)).head?, c.isDigit = false := by
    intro c hc
    by_cases hf : fracDs.isEmpty
    · rw [if_pos hf, List.nil_append] at hc
      exact (su_head spaces unit c hc).1
    · rw [if_neg hf, List.cons_append, List.head?_cons] at hc
      simp only [Option.mem_some_iff] at hc
      subst hc
      decide
  have hspan := span_digits_prefix hdi hFSUhead
  rw [compactMatch]
  simp only [List.append_assoc]
  rw [stripNeg_render neg _ hBhead]
  simp only []
  rw [hspan.1, hspan.2, hie]
  simp only [Bool.false_eq_true, if_false]
  by_cases hf : fracDs.isEmpty
  · have hfnil : fracDs = [] := by
      cases fracDs with
      | nil => rfl
      | cons a l => simp at hf
    rw [if_pos hf, List.nil_append]
    subst hfnil
    split
    · rename_i c rest heq
      have hcdot : c ≠ '.' := by
        have := su_head spaces unit c (by rw [heq]; simp)
        exact this.2
      rw [if_neg hcdot, ← heq]
      exact compactTail_render neg intDs [] spaces unit
    · rename_i heq
      have h := compactTail_render neg intDs [] spaces unit
      rw [heq] at h
      exact h
  · rw [if_neg hf, List.cons_append]
    have hSUdig : ∀ c ∈ (List.replicate spaces ' ' ++ unitChars unit).head?,
        c.isDigit = false := fun c hc => (su_head spaces unit c hc).1
    have hspan2 := span_digits_prefix hdf hSUdig
    split
    · rename_i c rest heq
      have hc : '.' = c := (List.cons.injEq _ _ _ _ ▸ heq).1
      have hrest : fracDs ++ (List.replicate spaces ' ' ++ unitChars unit) = rest :=
        (List.cons.injEq _ _ _ _ ▸ heq).2
      subst hc
      subst hrest
      rw [if_pos rfl]
      rw [hspan2.1, hspan2.2, if_neg hf]
      exact compactTail_render neg intDs fracDs spaces unit
    · rename_i heq
      exact absurd heq (by simp)

/-- **C9 counterexample** — `"-1 Cr"` parses to the signed value
`-1 * 1e7 = -10000000`, not to the absolute value `|−1| * 1e7 = 10000000`
the claim demands. -/
theorem C9_counterexample :
    parseCompactVolume (.str "-1 Cr") = some (-10000000) ∧
    ((-10000000 : ℚ) ≠ |(-1 : ℚ)| * 10 ^ 7) := by
  constructor
  · have hm : compactMatch (cleanChars "-1 Cr") = some (true, ['1'], [], .cr) := by
      decide
    have hne : (cleanChars "-1 Cr").isEmpty = false := by decide
    have hd1 : digitsToNat ['1'] = 1 := by decide
    have hd0 : digitsToNat ([] : List Char) = 0 := rfl
    simp only [parseCompactVolume, hne, Bool.false_eq_true, if_false, hm]
    norm_num [decimalValue, hd1, hd0, unitMultiplier]
  · norm_num

/-- **C9 (amended)** — Finite numbers pass through unchanged; a string
whose cleaned form (commas removed, trimmed) is an optional minus, a
nonempty digit run, an optional dot-fraction, whitespace, and an optional
unit parses to its **signed** decimal value times the unit multiplier
(`1e7` for `Cr`, `1e5` for `L`, `1` for none); a nonempty string the
compact pattern rejects but the `Number` fallback accepts (plain decimal
strings as well as hexadecimal, octal and binary integer literals) parses
directly to that fallback value; and every input rejected by both the
compact pattern and the `Number` fallback yields the unknown value, with
no exception and no NaN propagation (the parser is a total function into
`Option ℚ`). -/
theorem C9_parse_amended :
    (∀ q : ℚ, parseCompactVolume (.num q) = some q) ∧
    (∀ (s : String) (neg : Bool) (intDs fracDs : List Char) (spaces : Nat)
        (unit : CompactUnit),
        intDs ≠ [] → (∀ c ∈ intDs, c.isDigit = true) →
        (∀ c ∈ fracDs, c.isDigit = true) →
        cleanChars s =
          (if neg then ['-'] else []) ++ intDs ++
            (if fracDs.isEmpty then [] else '.' :: fracDs) ++
            List.replicate spaces ' ' ++ unitChars unit →
        parseCompactVolume (.str s) =
          some (decimalValue neg intDs fracDs * unitMultiplier unit)) ∧
    (∀ (s : String) (q : ℚ), (cleanChars s).isEmpty = false →
        compactMatch (cleanChars s) = none →
        jsNumber (cleanChars s) = some q →
        parseCompactVolume (.str s) = some q) ∧
    (∀ s : String, compactMatch (cleanChars s) = none →
        jsNumber (cleanChars s) = none →
        parseCompactVolume (.str s) = none) := by
  refine ⟨fun q => rfl, ?_, ?_, ?_⟩
  · intro s neg intDs fracDs spaces unit hi hdi hdf hclean
    have hmatch := compactMatch_render neg intDs fracDs spaces unit hi hdi hdf
    have hne : ((if neg then ['-'] else []) ++ intDs ++
        (if fracDs.isEmpty then [] else '.' :: fracDs) ++
        List.replicate spaces ' ' ++ unitChars unit).isEmpty = false := by
      cases intDs with
      | nil => exact absurd rfl hi
      | cons d ds => cases neg <;> rfl
    simp only [parseCompactVolume, hclean, hne, Bool.false_eq_true, if_false, hmatch]
  · intro s q hne h1 h2
    simp only [parseCompactVolume, hne, Bool.false_eq_true, if_false, h1]
    exact h2
  · intro s h1 h2
    simp only [parseCompactVolume]
    by_cases he : (cleanChars s).isEmpty
    · rw [if_pos he]
    · rw [if_neg he, h1]
      exact h2

/-- Witness for C9 at concrete inputs: `"12.5 Cr"`, the hexadecimal
fallback `"0x10"`, and the malformed `"abc"`. -/
theorem C9_parse_amended_witness :
    parseCompactVolume (.num 5) = some 5 ∧
    parseCompactVolume (.str "12.5 Cr") =
      some (decimalValue false ['1', '2'] ['5'] * unitMultiplier .cr) ∧
    parseCompactVolume (.str "0x10") = some 16 ∧
    parseCompactVolume (.str "abc") = none :=
  ⟨C9_parse_amended.1 5,
   C9_parse_amended.2.1 "12.5 Cr" false ['1', '2'] ['5'] 1 .cr (by decide)
     (by decide) (by decide) (by decide),
   C9_parse_amended.2.2.1 "0x10" 16 (by decide) (by decide)
     (by
       have hnd : nonDecimalBase (cleanChars "0x10") = some (16, ['1', '0']) := by
         decide
       have hfold :
           (['1', '0'].foldl (fun acc c => 16 * acc + baseDigitVal c) 0 : Nat) = 16 := by
         decide
       simp only [jsNumber, nonDecimalValue, hnd]
       rw [if_pos ⟨by decide, by decide⟩, hfold]
       norm_num),
   C9_parse_amended.2.2.2 "abc" (by decide) (by decide)⟩
